import Mathlib

/-!
Shallow embedding of the funding-rate ETL pipeline of this repository
(scripts `convert_tardis_to_markprice_format.py` and
`app_download_funding_rate.py`), together with theorems settling the
specification claims about it.

Conventions of the embedding:
* machine integers and Python ints are modelled as `Int`; Python `//`
  (floor division) is `Int.fdiv`;
* the four numeric payload fields of a raw observation are modelled as
  exact integers: every claim treated here concerns selection, filling
  and equality of these fields, never real arithmetic on them;
* pandas missing values (`NaN`) are modelled as `Option.none`;
* fallible stages return `Option`/records of outcomes.
-/

namespace FundingETL

/-! ### TimeGrid: date arithmetic

Source: `convert_tardis_to_markprice_format.py` lines 100-107 and 172-180,
`app_download_funding_rate.py` lines 344-347 and 394-397.
Dates are proleptic-Gregorian triples, as produced by
`datetime.strptime(date_str, "%Y-%m-%d")`. -/

structure Date where
  year : Int
  month : Int
  day : Int
deriving DecidableEq, Repr

/-- Gregorian leap-year test, as in Python's `calendar`/`datetime`. -/
def isLeap (y : Int) : Bool :=
  (y % 4 == 0 && y % 100 != 0) || y % 400 == 0

/-- Day counts of the twelve months of a non-leap year. -/
def monthDays : List Int := [31, 28, 31, 30, 31, 30, 31, 31, 30, 31, 30, 31]

/-- Number of days in month `m` of year `y` (as `calendar.monthrange`). -/
def daysInMonth (y m : Int) : Int :=
  if m = 2 then (if isLeap y then 29 else 28)
  else if m = 4 ∨ m = 6 ∨ m = 9 ∨ m = 11 then 30
  else 31

/-- Days in all years strictly before year `y` (as `datetime.date.toordinal`). -/
def daysBeforeYear (y : Int) : Int :=
  365 * (y - 1) + (y - 1).fdiv 4 - (y - 1).fdiv 100 + (y - 1).fdiv 400

/-- Days in year `y` strictly before month `m`. -/
def daysBeforeMonth (y m : Int) : Int :=
  (monthDays.take (m - 1).toNat).foldl (· + ·) 0 +
    (if 2 < m ∧ isLeap y then 1 else 0)

/-- Proleptic-Gregorian ordinal of a date, as `datetime.date.toordinal`
(`toordinal ⟨1970, 1, 1⟩ = 719163`). -/
def toordinal (d : Date) : Int :=
  daysBeforeYear d.year + daysBeforeMonth d.year d.month + d.day

/-- Days since the Unix epoch 1970-01-01. -/
def epochDays (d : Date) : Int := toordinal d - 719163

/-- Calendar successor of a date, as `datetime + timedelta(days=1)`. -/
def nextDay (d : Date) : Date :=
  if d.day < daysInMonth d.year d.month then ⟨d.year, d.month, d.day + 1⟩
  else if d.month < 12 then ⟨d.year, d.month + 1, 1⟩
  else ⟨d.year + 1, 1, 1⟩

/-- Millisecond epoch timestamp used by the converter to NAME the output
file for day `d` (`convert_tardis_to_markprice_format.py` lines 172-180):
`int(calendar.timegm((d + 1 day at 00:00:00).timetuple()) * 1000)`.
`calendar.timegm` is pure UTC arithmetic; the value returned by `timegm`
is an `int`, so `* 1000` is exact integer arithmetic. -/
def convertOutputTimestamp (d : Date) : Int :=
  (86400 * epochDays (nextDay d)) * 1000

/-- Millisecond timestamp used by `compress_day_data`
(`app_download_funding_rate.py` lines 344-347) to LOCATE a day's files:
`int(((d at 08:00:00) + 1 day).timestamp() * 1000)`.
The `datetime` here is naive, so `.timestamp()` interprets it in the
LOCAL timezone: for a fixed local UTC offset of `tzOff` seconds it
returns `timegm(t) - tzOff` seconds.  The value is an integral number of
seconds (microsecond field is zero), below 2^40, hence `* 1000` and
`int(...)` are exact despite passing through a Python float. -/
def compressTargetTimestamp (tzOff : Int) (d : Date) : Int :=
  (86400 * epochDays (nextDay d) + 8 * 3600 - tzOff) * 1000

/-- Millisecond timestamp used by `cleanup_data`
(`app_download_funding_rate.py` lines 394-397) to LOCATE a day's
processed files; the source lines are verbatim the same computation as
in `compress_day_data`. -/
def cleanupTargetTimestamp (tzOff : Int) (d : Date) : Int :=
  (86400 * epochDays (nextDay d) + 8 * 3600 - tzOff) * 1000

/-! ### Resampler: `convert_tardis_to_markprice_format`, one symbol-day file

Source: `convert_tardis_to_markprice_format.py` lines 88-189.
A raw observation is one CSV row; `ts` and `funding_timestamp` are
microsecond epoch timestamps. -/

/-- Microseconds per hour: the resample bucket width of `df.resample('h')`. -/
def usPerHour : Int := 3600000000

structure RawObs where
  ts : Int
  funding_rate : Int
  mark_price : Int
  index_price : Int
  funding_timestamp : Int
deriving DecidableEq, Repr

/-- Hour bucket of a microsecond timestamp (floor, as pandas resampling
floors a `datetime` to the hour). -/
def hourFloor (t : Int) : Int := t.fdiv usPerHour

/-- One resampled row; `none` models a pandas `NaN` in that column. -/
structure Slot where
  funding_rate : Option Int
  mark_price : Option Int
  index_price : Option Int
  funding_timestamp : Option Int
deriving DecidableEq, Repr

def emptySlot : Slot := ⟨none, none, none, none⟩

/-- Row produced by an observation: all four columns populated. -/
def slotOf (o : RawObs) : Slot :=
  ⟨some o.funding_rate, some o.mark_price, some o.index_price, some o.funding_timestamp⟩

/-- All four columns of the row are populated (no `NaN`). -/
def filledSlot (s : Slot) : Prop :=
  s.funding_rate.isSome ∧ s.mark_price.isSome ∧ s.index_price.isSome ∧
    s.funding_timestamp.isSome

instance (s : Slot) : Decidable (filledSlot s) := by
  unfold filledSlot; infer_instance

/-- Fold step selecting the winning observation of an hour bucket:
pandas sorts the bucket stably by timestamp and `.last()` keeps the
final row, so a later-positioned observation wins whenever its timestamp
is at least the current winner's. -/
def pickLast (b : Option RawObs) (o : RawObs) : Option RawObs :=
  match b with
  | none => some o
  | some w => if w.ts ≤ o.ts then some o else some w

/-- Observations of the input falling in hour bucket `h`, in input order. -/
def bucketOf (obs : List RawObs) (h : Int) : List RawObs :=
  obs.filter (fun o => hourFloor o.ts == h)

/-- Winning observation of hour bucket `h` (`df.resample('h').last()`). -/
def lastInBucket (obs : List RawObs) (h : Int) : Option RawObs :=
  (bucketOf obs h).foldl pickLast none

/-- Resampled row of hour bucket `h` before any filling. -/
def rawSlot (obs : List RawObs) (h : Int) : Slot :=
  match lastInBucket obs h with
  | none => emptySlot
  | some o => slotOf o

/-- The list `a, a+1, ..., a+n-1` of `n` consecutive integers. -/
def rangeInt (a : Int) : Nat → List Int
  | 0 => []
  | n + 1 => a :: rangeInt (a + 1) n

/-- Hour buckets produced by `df.resample('h')`: the contiguous range
from the hour floor of the earliest observation to the hour floor of the
latest one (pandas materialises the empty buckets in between). -/
def hourSpan (obs : List RawObs) : List Int :=
  match obs.map (fun o => hourFloor o.ts) with
  | [] => []
  | h :: hs =>
      rangeInt (hs.foldl min h) ((hs.foldl max h - hs.foldl min h + 1).toNat)

/-- Forward-fill step for one column: keep the current value if present,
else the most recent earlier one. -/
def fstep (p c : Option Int) : Option Int :=
  match c with
  | some v => some v
  | none => p

/-- Forward-fill step applied to all four columns of a row
(the script forward-fills the four columns one after the other; the
columns are independent, so one row-wise pass is the same function). -/
def fstepSlot (p c : Slot) : Slot :=
  ⟨fstep p.funding_rate c.funding_rate, fstep p.mark_price c.mark_price,
   fstep p.index_price c.index_price, fstep p.funding_timestamp c.funding_timestamp⟩

/-- Forward fill (`Series.ffill`) of the four columns, threading the
last seen value `p` of each column. -/
def ffillSlots (p : Slot) : List Slot → List Slot
  | [] => []
  | s :: rest => fstepSlot p s :: ffillSlots (fstepSlot p s) rest

/-- Backward fill (`Series.bfill`) of the four columns. -/
def bfillSlots (l : List Slot) : List Slot :=
  (ffillSlots emptySlot l.reverse).reverse

/-- Lines 110-131 of the converter: resample to hour buckets, take the
last observation of each bucket, forward-fill then backward-fill every
column, keyed by bucket hour. -/
def resampledFrame (obs : List RawObs) : List (Int × Slot) :=
  let hs := hourSpan obs
  hs.zip (bfillSlots (ffillSlots emptySlot (hs.map (rawSlot obs))))

/-- Lines 133-140: keep the resampled rows of the UTC day starting at
hour `H0` (`H0` = hours since epoch of the day's 00:00 UTC), the
half-open interval of 24 hour buckets. -/
def dayData (obs : List RawObs) (H0 : Int) : List (Int × Slot) :=
  (resampledFrame obs).filter (fun p => decide (H0 ≤ p.1) && decide (p.1 < H0 + 24))

/-- Row of the day's data at hour `h`, as matched by
`full_df.merge(day_data, on='datetime', how='left')`: the first row
keyed `h`, or an all-`NaN` row when none matches. -/
def lookupHour (dd : List (Int × Slot)) (h : Int) : Slot :=
  match dd.find? (fun p => p.1 == h) with
  | some p => p.2
  | none => emptySlot

/-- Lines 146-156: merge the day's rows onto the full 24-hour skeleton
and forward/backward fill each column again. -/
def mergeFill (dd : List (Int × Slot)) (H0 : Int) : List (Int × Slot) :=
  let hs := rangeInt H0 24
  hs.zip (bfillSlots (ffillSlots emptySlot (hs.map (lookupHour dd))))

/-- Outcome of converting one symbol-day file: the rows written to the
output file (`none` when the file is skipped) and whether the file was
added to the problem report. -/
structure ConvResult where
  output : Option (List (Int × Slot))
  problem : Bool
deriving DecidableEq, Repr

/-- Lines 142-189 of the converter, for one input file of day `H0`:
24 rows are written as-is; 1-23 rows are reported and completed through
the skeleton merge before writing; 0 rows are reported and the file is
skipped. -/
def convertFile (obs : List RawObs) (H0 : Int) : ConvResult :=
  let dd := dayData obs H0
  if dd.length = 24 then ⟨some dd, false⟩
  else if 0 < dd.length then ⟨some (mergeFill dd H0), true⟩
  else ⟨none, true⟩

/-- Hours-since-epoch of 00:00 UTC of day `d`: the day filter bound
`day_start = input_date.replace(hour=0, ...)` in bucket-hour units. -/
def dayStartHour (d : Date) : Int := 24 * epochDays d

/-! ### DayPipeline: `app_download_funding_rate.py`

The per-day orchestration.  File-system state and per-stage outcomes
visible to the orchestrator are gathered in `DayWorld`; the interactive
console output of the script is not modelled. -/

/-- Availability matrix (`res/availability_matrix.csv` read with
`pd.read_csv(..., index_col=0)`): column symbols and rows of day-keyed
flags aligned with the columns. -/
structure AvailabilityMatrix where
  columns : List String
  rows : List (String × List Int)

/-- Lines 59-82: symbols whose flag is 1 on the row keyed exactly
`date_str`; the empty list when the day is absent from the index. -/
def get_available_symbols_for_date (m : AvailabilityMatrix) (date_str : String) :
    List String :=
  match m.rows.find? (fun r => r.1 == date_str) with
  | none => []
  | some r => ((m.columns.zip r.2).filter (fun p => p.2 == 1)).map Prod.fst

/-- File system as content keyed by path (`none` = file absent). -/
def FileSys := String → Option String

/-- Per-symbol download target
`{download_dir}/{symbol}/funding_rate/{date_str}.csv.gz`
(lines 108-116 of `app_download_funding_rate.py`). -/
def targetPath (downloadDir sym date_str : String) : String :=
  downloadDir ++ "/" ++ sym ++ "/funding_rate/" ++ date_str ++ ".csv.gz"

/-- Modelled from the spec: the external fetch collaborator
(`tardis_dev.datasets.download`, a third-party library, is not part of
this repository).  Spec section 6: given (symbol set, day) it produces
per-symbol compressed files at the deterministic target path and is
"idempotent — re-invocation with targets already present must not
re-fetch those targets", so it downloads exactly the missing targets,
taking their contents from the network oracle `net`.  Returns the new
file system and the list of paths actually downloaded. -/
def datasets_download (net : String → String) (fs : FileSys)
    (symbols : List String) (date_str downloadDir : String) :
    FileSys × List String :=
  let missing := symbols.filter (fun s => (fs (targetPath downloadDir s date_str)).isNone)
  let newPaths := missing.map (fun s => targetPath downloadDir s date_str)
  (fun p => if newPaths.contains p then some (net p) else fs p, newPaths)

/-- Report printed by `download_funding_rate_data`: symbols whose target
file pre-existed (skipped, line 111-119) and symbols whose target exists
after the call (lines 153-158). -/
structure FetchReport where
  initialFiles : List String
  finalDownloaded : List String
  ok : Bool
deriving Repr

/-- Lines 85-174: record pre-existing targets, invoke the external
downloader, record the targets present afterwards, return success. -/
def download_funding_rate_data (net : String → String) (fs : FileSys)
    (symbols : List String) (date_str downloadDir : String) :
    FileSys × FetchReport × List String :=
  let initial := symbols.filter (fun s => (fs (targetPath downloadDir s date_str)).isSome)
  let res := datasets_download net fs symbols date_str downloadDir
  let final := symbols.filter (fun s => ((res.1) (targetPath downloadDir s date_str)).isSome)
  (res.1, ⟨initial, final, true⟩, res.2)

/-- Stage outcomes of one day visible to `process_single_date`:
whether the fetch call raised, which symbols have a decompressible
`.csv.gz` after fetch, which decompressions fail, the listing of each
symbol's converter output directory (`none` = directory absent), the
number of files matched by the archive step, and the purge failure
count (reported only). -/
structure DayWorld where
  fetchRaises : Bool
  gzPresent : String → Bool
  extractFails : String → Bool
  convertOutput : String → Option (List String)
  compressedCount : Nat
  cleanupFailures : Nat

/-- Lines 207-267: per symbol, decompress the fetched file when present;
returns the successfully extracted files (as their symbols). -/
def extract_day_data (symbols : List String) (w : DayWorld) : List String :=
  symbols.filter (fun s => w.gzPresent s && !(w.extractFails s))

/-- Python's `str.endswith`, written as a suffix test on the character
list.  (`String.endsWith` of the Lean core library is extensionally the
same function but is defined by well-founded recursion, which blocks
kernel evaluation on concrete file names.) -/
def endswith (s suf : String) : Bool :=
  List.isSuffixOf suf.data s.data

/-- Lines 298-308: a symbol counts as converted when its output
directory exists and holds at least one file ending in `.csv`
(no check that the file belongs to the processed day). -/
def symbolConvertSuccess (w : DayWorld) (s : String) : Bool :=
  match w.convertOutput s with
  | some files => files.any (fun f => endswith f ".csv")
  | none => false

/-- Conversion statistics returned by `convert_day_data`. -/
structure ConvertStats where
  success : Nat
  failed : Nat
deriving DecidableEq, Repr

/-- Lines 274-321: run the converter over the extracted data, then count
per symbol by inspecting the output directories.  `date_str` is received
(and printed) but never used by the counting. -/
def convert_day_data (date_str : String) (symbols : List String) (w : DayWorld) :
    ConvertStats :=
  let _ := date_str
  ⟨(symbols.filter (fun s => symbolConvertSuccess w s)).length,
   (symbols.filter (fun s => !(symbolConvertSuccess w s))).length⟩

/-- Lines 324-376: archive the day's files; succeeds when at least one
file matched the settlement timestamp. -/
def compress_day_data (w : DayWorld) : Bool :=
  decide (0 < w.compressedCount)

/-- Result of `process_single_date`: its boolean verdict and whether the
cleanup stage (step 5) was reached and executed. -/
structure PipelineResult where
  ok : Bool
  cleanupRan : Bool
deriving DecidableEq, Repr

/-- Lines 481-537: the per-day pipeline.  No symbols: return `False`.
Fetch raising is caught: `False`.  Zero extracted files: `False`.
Zero convert successes: `False`.  Otherwise compress (its boolean
result only prints a warning) and always run cleanup, then `True`. -/
def process_single_date (date_str : String) (m : AvailabilityMatrix) (w : DayWorld) :
    PipelineResult :=
  let symbols := get_available_symbols_for_date m date_str
  if symbols.isEmpty then ⟨false, false⟩
  else if w.fetchRaises then ⟨false, false⟩
  else if (extract_day_data symbols w).isEmpty then ⟨false, false⟩
  else if (convert_day_data date_str symbols w).success = 0 then ⟨false, false⟩
  else
    let _ := compress_day_data w
    ⟨true, true⟩

/-- Final accounting of `main` (lines 684-708): the failed days and the
process exit code. -/
structure RunSummary where
  failedDays : List String
  exitCode : Nat
deriving DecidableEq, Repr

/-- Lines 684-708: process the days in order, recording each day whose
`process_single_date` verdict is `False` as failed; exit code 0 when no
day failed, 1 otherwise. -/
def runDays (days : List String) (m : AvailabilityMatrix) (w : String → DayWorld) :
    RunSummary :=
  let failed := days.filter (fun d => !(process_single_date d m (w d)).ok)
  ⟨failed, if failed.isEmpty then 0 else 1⟩

/-! ### Lemmas about forward/backward filling -/

theorem fstep_some (p : Option Int) (v : Int) : fstep p (some v) = some v := rfl

theorem fstep_none (p : Option Int) : fstep p none = p := rfl

theorem fstepSlot_of_filled (p c : Slot) (hc : filledSlot c) : fstepSlot p c = c := by
  obtain ⟨c1, c2, c3, c4⟩ := c
  obtain ⟨h1, h2, h3, h4⟩ := hc
  cases c1 <;> cases c2 <;> cases c3 <;> cases c4 <;>
    simp_all [fstepSlot, fstep, filledSlot]

theorem filledSlot_fstepSlot (p c : Slot) (hp : filledSlot p) :
    filledSlot (fstepSlot p c) := by
  obtain ⟨c1, c2, c3, c4⟩ := c
  obtain ⟨h1, h2, h3, h4⟩ := hp
  cases c1 <;> cases c2 <;> cases c3 <;> cases c4 <;>
    simp_all [fstepSlot, fstep, filledSlot]

theorem fstepSlot_emptySlot (p : Slot) : fstepSlot p emptySlot = p := rfl

theorem length_ffillSlots (p : Slot) (l : List Slot) :
    (ffillSlots p l).length = l.length := by
  induction l generalizing p with
  | nil => rfl
  | cons s rest ih => simp [ffillSlots, ih]

theorem length_bfillSlots (l : List Slot) : (bfillSlots l).length = l.length := by
  simp [bfillSlots, length_ffillSlots]

theorem ffillSlots_append (p : Slot) (l₁ l₂ : List Slot) :
    ffillSlots p (l₁ ++ l₂) =
      ffillSlots p l₁ ++ ffillSlots (l₁.foldl fstepSlot p) l₂ := by
  induction l₁ generalizing p with
  | nil => rfl
  | cons s rest ih => simp [ffillSlots, ih, List.foldl_cons]

theorem foldl_fstepSlot_filled (p : Slot) (l : List Slot) (hp : filledSlot p) :
    filledSlot (l.foldl fstepSlot p) := by
  induction l generalizing p with
  | nil => exact hp
  | cons s rest ih => exact ih _ (filledSlot_fstepSlot p s hp)

theorem filled_of_mem_ffillSlots (p : Slot) (l : List Slot) (hp : filledSlot p) :
    ∀ s ∈ ffillSlots p l, filledSlot s := by
  induction l generalizing p with
  | nil => intro s hs; simp [ffillSlots] at hs
  | cons c rest ih =>
      intro s hs
      simp only [ffillSlots, List.mem_cons] at hs
      rcases hs with rfl | hs
      · exact filledSlot_fstepSlot p c hp
      · exact ih _ (filledSlot_fstepSlot p c hp) s hs

theorem ffillSlots_of_filled (l : List Slot) (hl : ∀ s ∈ l, filledSlot s)
    (p : Slot) : ffillSlots p l = l := by
  induction l generalizing p with
  | nil => rfl
  | cons s rest ih =>
      have hs : filledSlot s := hl s (by simp)
      simp only [ffillSlots, fstepSlot_of_filled p s hs]
      rw [ih (fun t ht => hl t (by simp [ht]))]

theorem filled_of_mem_bfill_ffill (l : List Slot)
    (hx : ∃ s ∈ l, filledSlot s) :
    ∀ t ∈ bfillSlots (ffillSlots emptySlot l), filledSlot t := by
  obtain ⟨f, hf, hfil⟩ := hx
  obtain ⟨l₁, l₂, rfl⟩ := List.append_of_mem hf
  -- forward pass: everything from `f` on is filled
  have hF : ffillSlots emptySlot (l₁ ++ f :: l₂) =
      ffillSlots emptySlot l₁ ++
        (f :: ffillSlots f l₂) := by
    rw [ffillSlots_append]
    congr 1
    simp only [ffillSlots, fstepSlot_of_filled _ f hfil]
  have hsuffix : ∀ s ∈ f :: ffillSlots f l₂, filledSlot s := by
    intro s hs
    rcases List.mem_cons.mp hs with rfl | hs
    · exact hfil
    · exact filled_of_mem_ffillSlots f l₂ hfil s hs
  -- backward pass over the reverse
  intro t ht
  rw [hF] at ht
  unfold bfillSlots at ht
  rw [List.mem_reverse] at ht
  set A := ffillSlots emptySlot l₁ with hA
  set B := f :: ffillSlots f l₂ with hB
  have hrev : (A ++ B).reverse = B.reverse ++ A.reverse := by
    simp
  rw [hrev] at ht
  have hBne : B.reverse ≠ [] := by simp [hB]
  obtain ⟨r0, R', hR⟩ := List.exists_cons_of_ne_nil hBne
  have hr0 : filledSlot r0 := by
    have : r0 ∈ B.reverse := by rw [hR]; simp
    exact hsuffix r0 (List.mem_reverse.mp this)
  have hR'fil : ∀ s ∈ R', filledSlot s := by
    intro s hs
    have : s ∈ B.reverse := by rw [hR]; simp [hs]
    exact hsuffix s (List.mem_reverse.mp this)
  rw [hR] at ht
  have hsplit : ffillSlots emptySlot ((r0 :: R') ++ A.reverse) =
      ffillSlots emptySlot (r0 :: R') ++
        ffillSlots ((r0 :: R').foldl fstepSlot emptySlot) A.reverse :=
    ffillSlots_append _ _ _
  rw [hsplit] at ht
  rcases List.mem_append.mp ht with ht | ht
  · have hhead : ffillSlots emptySlot (r0 :: R') = r0 :: ffillSlots r0 R' := by
      simp only [ffillSlots, fstepSlot_of_filled _ r0 hr0]
    rw [hhead] at ht
    rcases List.mem_cons.mp ht with rfl | ht
    · exact hr0
    · exact filled_of_mem_ffillSlots r0 R' hr0 t ht
  · have hq : filledSlot ((r0 :: R').foldl fstepSlot emptySlot) := by
      simp only [List.foldl_cons, fstepSlot_of_filled _ r0 hr0]
      exact foldl_fstepSlot_filled r0 R' hr0
    exact filled_of_mem_ffillSlots _ _ hq t ht

/-- Positional agreement: filling never alters a row that was already
fully populated. -/
def agreeSlot (a b : Slot) : Prop := filledSlot a → b = a

theorem forall2_ffillSlots (p : Slot) (l : List Slot) :
    List.Forall₂ agreeSlot l (ffillSlots p l) := by
  induction l generalizing p with
  | nil => exact List.Forall₂.nil
  | cons s rest ih =>
      exact List.Forall₂.cons (fun h => fstepSlot_of_filled p s h) (ih _)

theorem forall2_bfillSlots (l : List Slot) :
    List.Forall₂ agreeSlot l (bfillSlots l) := by
  unfold bfillSlots
  have h := forall2_ffillSlots emptySlot l.reverse
  have h2 : List.Forall₂ agreeSlot l.reverse
      ((ffillSlots emptySlot l.reverse).reverse.reverse) := by
    simpa using h
  simpa using List.forall₂_reverse_iff.mp h2

theorem forall2_agree_trans {l m n : List Slot}
    (h1 : List.Forall₂ agreeSlot l m) (h2 : List.Forall₂ agreeSlot m n) :
    List.Forall₂ agreeSlot l n := by
  induction h1 generalizing n with
  | nil => cases h2; exact List.Forall₂.nil
  | cons hab htail ih =>
      cases h2 with
      | cons hbc h2tail =>
          refine List.Forall₂.cons ?_ (ih h2tail)
          intro ha
          rw [hbc (by rw [hab ha]; exact ha), hab ha]

theorem forall2_fill_pipeline (l : List Slot) :
    List.Forall₂ agreeSlot l (bfillSlots (ffillSlots emptySlot l)) :=
  forall2_agree_trans (forall2_ffillSlots emptySlot l)
    (forall2_bfillSlots (ffillSlots emptySlot l))

/-! ### Lemmas about bucket selection -/

theorem pickLast_isSome (b : Option RawObs) (o : RawObs) : (pickLast b o).isSome := by
  cases b with
  | none => rfl
  | some w => by_cases h : w.ts ≤ o.ts <;> simp [pickLast, h]

theorem foldl_pickLast_isSome (l : List RawObs) (b : Option RawObs)
    (hb : b.isSome) : (l.foldl pickLast b).isSome := by
  induction l generalizing b with
  | nil => exact hb
  | cons x t ih => exact ih _ (pickLast_isSome b x)

theorem lastInBucket_isSome (obs : List RawObs) (o : RawObs) (ho : o ∈ obs) :
    (lastInBucket obs (hourFloor o.ts)).isSome := by
  unfold lastInBucket
  have hmem : o ∈ bucketOf obs (hourFloor o.ts) := by
    simp [bucketOf, List.mem_filter, ho]
  obtain ⟨x, t, hx⟩ := List.exists_cons_of_ne_nil
    (List.ne_nil_of_mem hmem)
  rw [hx]
  exact foldl_pickLast_isSome t _ (pickLast_isSome none x)

theorem filledSlot_slotOf (o : RawObs) : filledSlot (slotOf o) := by
  simp [slotOf, filledSlot]

theorem rawSlot_filled_of_mem (obs : List RawObs) (o : RawObs) (ho : o ∈ obs) :
    filledSlot (rawSlot obs (hourFloor o.ts)) := by
  unfold rawSlot
  cases hb : lastInBucket obs (hourFloor o.ts) with
  | none => exact absurd hb (by have := lastInBucket_isSome obs o ho; simp_all)
  | some w => exact filledSlot_slotOf w

theorem rawSlot_cases (obs : List RawObs) (h : Int) :
    rawSlot obs h = emptySlot ∨ filledSlot (rawSlot obs h) := by
  unfold rawSlot
  cases lastInBucket obs h with
  | none => exact Or.inl rfl
  | some w => exact Or.inr (filledSlot_slotOf w)

/-! ### Lemmas about `rangeInt` -/

theorem length_rangeInt (a : Int) (n : Nat) : (rangeInt a n).length = n := by
  induction n generalizing a with
  | zero => rfl
  | succ n ih => simp [rangeInt, ih]

theorem mem_rangeInt {x a : Int} {n : Nat} :
    x ∈ rangeInt a n ↔ a ≤ x ∧ x < a + n := by
  induction n generalizing a with
  | zero => simp [rangeInt]
  | succ n ih =>
      simp only [rangeInt, List.mem_cons, ih]
      push_cast
      omega

theorem pairwise_rangeInt (a : Int) (n : Nat) :
    (rangeInt a n).Pairwise (· < ·) := by
  induction n generalizing a with
  | zero => exact List.Pairwise.nil
  | succ n ih =>
      refine List.Pairwise.cons ?_ (ih (a + 1))
      intro y hy
      have := mem_rangeInt.mp hy
      omega

theorem rangeInt_append (a : Int) (m n : Nat) :
    rangeInt a (m + n) = rangeInt a m ++ rangeInt (a + m) n := by
  induction m generalizing a with
  | zero => simp [rangeInt]
  | succ m ih =>
      have hmn : m + 1 + n = (m + n) + 1 := by omega
      rw [hmn]
      show a :: rangeInt (a + 1) (m + n) = (a :: rangeInt (a + 1) m) ++ _
      rw [ih (a + 1)]
      simp only [List.cons_append]
      congr 2
      push_cast
      ring_nf

theorem getElem_rangeInt (a : Int) (n i : Nat) (h : i < n)
    (h' : i < (rangeInt a n).length) : (rangeInt a n)[i] = a + i := by
  induction n generalizing a i with
  | zero => omega
  | succ n ih =>
      cases i with
      | zero => simp [rangeInt]
      | succ i =>
          have h2 : i < (rangeInt (a + 1) n).length := by
            simpa [length_rangeInt] using Nat.lt_of_succ_lt_succ h
          have e : (rangeInt a (n + 1))[i + 1] = (rangeInt (a + 1) n)[i] := rfl
          rw [e, ih (a + 1) i (by omega) h2]
          push_cast
          ring

/-! ### Lemmas about running minima and maxima -/

theorem foldl_min_le (t : List Int) (h : Int) :
    t.foldl min h ≤ h ∧ ∀ x ∈ t, t.foldl min h ≤ x := by
  induction t generalizing h with
  | nil => simp
  | cons y t ih =>
      obtain ⟨ih1, ih2⟩ := ih (min h y)
      refine ⟨le_trans ih1 (min_le_left h y), ?_⟩
      intro x hx
      rcases List.mem_cons.mp hx with rfl | hx
      · exact le_trans ih1 (min_le_right h x)
      · exact ih2 x hx

theorem le_foldl_max (t : List Int) (h : Int) :
    h ≤ t.foldl max h ∧ ∀ x ∈ t, x ≤ t.foldl max h := by
  induction t generalizing h with
  | nil => simp
  | cons y t ih =>
      obtain ⟨ih1, ih2⟩ := ih (max h y)
      refine ⟨le_trans (le_max_left h y) ih1, ?_⟩
      intro x hx
      rcases List.mem_cons.mp hx with rfl | hx
      · exact le_trans (le_max_right h x) ih1
      · exact ih2 x hx

theorem le_foldl_min (t : List Int) (h c : Int)
    (hc : c ≤ h ∧ ∀ x ∈ t, c ≤ x) : c ≤ t.foldl min h := by
  induction t generalizing h with
  | nil => exact hc.1
  | cons y t ih =>
      exact ih (min h y)
        ⟨le_min hc.1 (hc.2 y (by simp)), fun x hx => hc.2 x (by simp [hx])⟩

theorem foldl_max_le (t : List Int) (h c : Int)
    (hc : h ≤ c ∧ ∀ x ∈ t, x ≤ c) : t.foldl max h ≤ c := by
  induction t generalizing h with
  | nil => exact hc.1
  | cons y t ih =>
      exact ih (max h y)
        ⟨max_le hc.1 (hc.2 y (by simp)), fun x hx => hc.2 x (by simp [hx])⟩

/-- Characterisation of the resample bucket range of a nonempty input:
a contiguous `rangeInt lo n` that contains every observation's hour and
is tight on both sides. -/
theorem hourSpan_spec (obs : List RawObs) (hne : obs ≠ []) :
    ∃ lo : Int, ∃ n : Nat, hourSpan obs = rangeInt lo n ∧ 1 ≤ n ∧
      (∀ o ∈ obs, lo ≤ hourFloor o.ts ∧ hourFloor o.ts < lo + n) ∧
      (∀ c : Int, (∀ o ∈ obs, c ≤ hourFloor o.ts) → c ≤ lo) ∧
      (∀ c : Int, (∀ o ∈ obs, hourFloor o.ts ≤ c) → lo + n ≤ c + 1) := by
  unfold hourSpan
  cases hm : obs.map (fun o => hourFloor o.ts) with
  | nil => exact absurd (List.map_eq_nil_iff.mp hm) hne
  | cons h hs =>
      set lo := hs.foldl min h with hlo
      set hi := hs.foldl max h with hhi
      have hlo_le : lo ≤ h := (foldl_min_le hs h).1
      have hle_hi : h ≤ hi := (le_foldl_max hs h).1
      have hmem : ∀ o ∈ obs, lo ≤ hourFloor o.ts ∧ hourFloor o.ts ≤ hi := by
        intro o ho
        have : hourFloor o.ts ∈ h :: hs := by
          rw [← hm]; exact List.mem_map_of_mem _ ho
        rcases List.mem_cons.mp this with heq | hmm
        · rw [heq]; exact ⟨hlo_le, hle_hi⟩
        · exact ⟨(foldl_min_le hs h).2 _ hmm, (le_foldl_max hs h).2 _ hmm⟩
      have hlohi : lo ≤ hi := le_trans hlo_le hle_hi
      refine ⟨lo, (hi - lo + 1).toNat, rfl, by omega, ?_, ?_, ?_⟩
      · intro o ho
        have := hmem o ho
        have hcast : ((hi - lo + 1).toNat : Int) = hi - lo + 1 := by omega
        omega
      · intro c hc
        refine le_foldl_min hs h c ⟨?_, ?_⟩
        · have : h ∈ obs.map (fun o => hourFloor o.ts) := by simp [hm]
          obtain ⟨o, ho, heq⟩ := List.mem_map.mp this
          rw [← heq]; exact hc o ho
        · intro x hx
          have : x ∈ obs.map (fun o => hourFloor o.ts) := by simp [hm, hx]
          obtain ⟨o, ho, heq⟩ := List.mem_map.mp this
          rw [← heq]; exact hc o ho
      · intro c hc
        have hhic : hi ≤ c := by
          refine foldl_max_le hs h c ⟨?_, ?_⟩
          · have : h ∈ obs.map (fun o => hourFloor o.ts) := by simp [hm]
            obtain ⟨o, ho, heq⟩ := List.mem_map.mp this
            rw [← heq]; exact hc o ho
          · intro x hx
            have : x ∈ obs.map (fun o => hourFloor o.ts) := by simp [hm, hx]
            obtain ⟨o, ho, heq⟩ := List.mem_map.mp this
            rw [← heq]; exact hc o ho
        have hcast : ((hi - lo + 1).toNat : Int) = hi - lo + 1 := by omega
        omega

/-! ### A strictly sorted integer list filling a window is the window -/

theorem pairwise_lt_getElem_bound (l : List Int) (hp : l.Pairwise (· < ·)) :
    ∀ i : Nat, ∀ hi : i < l.length, ∀ h0 : 0 < l.length, l[0] + i ≤ l[i] := by
  induction l with
  | nil => intro i hi; simp at hi
  | cons x t ih =>
      intro i hi h0
      cases i with
      | zero => simp
      | succ i =>
          have hpt := (List.pairwise_cons.mp hp).2
          have hhead := (List.pairwise_cons.mp hp).1
          have hit : i < t.length := Nat.lt_of_succ_lt_succ hi
          have h0t : 0 < t.length := Nat.lt_of_le_of_lt (Nat.zero_le i) hit
          have hb := ih hpt i hit h0t
          have hx : x < t[0] := hhead _ (List.getElem_mem h0t)
          have e1 : (x :: t)[i + 1] = t[i] := rfl
          have e2 : (x :: t)[0] = x := rfl
          push_cast at hb ⊢
          omega

theorem sorted_window (n : Nat) :
    ∀ (a : Int) (l : List Int), l.Pairwise (· < ·) → l.length = n →
      (∀ x ∈ l, a ≤ x ∧ x < a + n) → l = rangeInt a n := by
  induction n with
  | zero =>
      intro a l _ hlen _
      rw [List.length_eq_zero.mp hlen]; rfl
  | succ n ih =>
      intro a l hp hlen hmem
      have hlne : l ≠ [] := by intro h; rw [h] at hlen; simp at hlen
      obtain ⟨x, t, rfl⟩ := List.exists_cons_of_ne_nil hlne
      have h0 : 0 < (x :: t).length := by simp
      have hxa : a ≤ x := (hmem x (by simp)).1
      have hxa' : x = a := by
        by_contra hne
        have hn2 : n < (x :: t).length := by omega
        have hlast := pairwise_lt_getElem_bound (x :: t) hp n hn2 h0
        have hmem_last := hmem ((x :: t)[n]) (List.getElem_mem hn2)
        have hx0 : (x :: t)[0] = x := rfl
        rw [hx0] at hlast
        push_cast at hlast hmem_last ⊢
        omega
      subst hxa'
      have hpt := (List.pairwise_cons.mp hp).2
      have hhead := (List.pairwise_cons.mp hp).1
      have ht : t = rangeInt (x + 1) n := by
        refine ih (x + 1) t hpt (by simpa using hlen) ?_
        intro y hy
        have h1 := hhead y hy
        have h2 := (hmem y (by simp [hy])).2
        push_cast at h2 ⊢
        omega
      rw [ht]; rfl

/-! ### Zip, filter and lookup helpers -/

theorem exists_zip_pair {α β : Type} (l₁ : List α) (l₂ : List β)
    (hlen : l₁.length = l₂.length) (a : α) (ha : a ∈ l₁) :
    ∃ b, (a, b) ∈ l₁.zip l₂ := by
  obtain ⟨i, hi, hgi⟩ := List.getElem_of_mem ha
  have hi2 : i < l₂.length := by omega
  have hiz : i < (l₁.zip l₂).length := by
    simp [List.length_zip]
    omega
  refine ⟨l₂[i], ?_⟩
  have hz : (l₁.zip l₂)[i] = (l₁[i], l₂[i]) := List.getElem_zip
  have hmz := List.getElem_mem hiz
  rw [hz] at hmz
  rw [← hgi]
  exact hmz

theorem zip_range_mem (a : Int) (n : Nat) (v : List Slot) (hv : v.length = n)
    (h : Int) (s : Slot) (hm : (h, s) ∈ (rangeInt a n).zip v) :
    ∃ i : Nat, ∃ hi : i < v.length, h = a + i ∧ s = v[i] := by
  obtain ⟨j, hj, hgj⟩ := List.getElem_of_mem hm
  have hjlen : j < n := by
    simp [List.length_zip, length_rangeInt, hv] at hj
    omega
  have hjv : j < v.length := by omega
  have hjr : j < (rangeInt a n).length := by
    simp [length_rangeInt]
    omega
  have hz : ((rangeInt a n).zip v)[j] = ((rangeInt a n)[j], v[j]) :=
    List.getElem_zip
  rw [hz] at hgj
  have h1 : (rangeInt a n)[j] = a + j := getElem_rangeInt a n j hjlen hjr
  refine ⟨j, hjv, ?_, ?_⟩
  · rw [← ((Prod.mk.injEq _ _ _ _).mp hgj).1, h1]
  · exact (((Prod.mk.injEq _ _ _ _).mp hgj).2).symm

theorem map_fst_filter (l : List (Int × Slot)) (P : Int → Bool) :
    (l.filter (fun p => P p.1)).map Prod.fst = (l.map Prod.fst).filter P := by
  induction l with
  | nil => rfl
  | cons p t ih =>
      by_cases hp : P p.1 <;> simp [List.filter, hp, ih]

theorem lookupHour_cons_self (p : Int × Slot) (rest : List (Int × Slot)) :
    lookupHour (p :: rest) p.1 = p.2 := by
  simp [lookupHour, List.find?]

theorem lookupHour_mem_or_empty (dd : List (Int × Slot)) (h : Int) :
    lookupHour dd h = emptySlot ∨ ∃ p ∈ dd, lookupHour dd h = p.2 := by
  unfold lookupHour
  cases hf : dd.find? (fun p => p.1 == h) with
  | none => exact Or.inl rfl
  | some p => exact Or.inr ⟨p, List.mem_of_find?_eq_some hf, rfl⟩

theorem lookupHour_eq_of_mem_nodup (dd : List (Int × Slot))
    (hnd : (dd.map Prod.fst).Nodup) (h : Int) (s : Slot) (hm : (h, s) ∈ dd) :
    lookupHour dd h = s := by
  induction dd with
  | nil => simp at hm
  | cons p t ih =>
      rcases List.mem_cons.mp hm with rfl | hm
      · exact lookupHour_cons_self _ t
      · have hne : p.1 ≠ h := by
          intro he
          have : h ∈ t.map Prod.fst := by
            exact List.mem_map.mpr ⟨(h, s), hm, rfl⟩
          rw [List.map_cons] at hnd
          exact (List.nodup_cons.mp hnd).1 (he ▸ this)
        have hbeq : (p.1 == h) = false := by simp [hne]
        have : lookupHour (p :: t) h = lookupHour t h := by
          simp [lookupHour, List.find?, hbeq]
        rw [this]
        exact ih (by rw [List.map_cons] at hnd; exact (List.nodup_cons.mp hnd).2) hm

/-! ### Structure of the resampled frame -/

theorem length_fill_map (f : Int → Slot) (hs : List Int) :
    (bfillSlots (ffillSlots emptySlot (hs.map f))).length = hs.length := by
  rw [length_bfillSlots, length_ffillSlots, List.length_map]

theorem resampledFrame_map_fst (obs : List RawObs) :
    (resampledFrame obs).map Prod.fst = hourSpan obs := by
  unfold resampledFrame
  exact List.map_fst_zip _ _ (by rw [length_fill_map])

theorem frame_filled (obs : List RawObs) (o : RawObs) (ho : o ∈ obs) :
    ∀ p ∈ resampledFrame obs, filledSlot p.2 := by
  intro p hp
  unfold resampledFrame at hp
  have h2 := (List.of_mem_zip hp).2
  refine filled_of_mem_bfill_ffill _ ⟨rawSlot obs (hourFloor o.ts), ?_, ?_⟩ _ h2
  · refine List.mem_map_of_mem _ ?_
    obtain ⟨lo, n, hspan, hn, hmem, _, _⟩ := hourSpan_spec obs (List.ne_nil_of_mem ho)
    rw [hspan, mem_rangeInt]
    exact hmem o ho
  · exact rawSlot_filled_of_mem obs o ho

theorem frame_pair (obs : List RawObs) (h : Int) (s : Slot)
    (hm : (h, s) ∈ resampledFrame obs) :
    h ∈ hourSpan obs ∧ agreeSlot (rawSlot obs h) s := by
  have hne : obs ≠ [] := by
    intro he
    rw [he] at hm
    simp [resampledFrame, hourSpan] at hm
  obtain ⟨lo, n, hspan, hn, _, _, _⟩ := hourSpan_spec obs hne
  unfold resampledFrame at hm
  rw [hspan] at hm
  set cl := bfillSlots (ffillSlots emptySlot ((rangeInt lo n).map (rawSlot obs)))
    with hcl
  have hcll : cl.length = n := by rw [hcl, length_fill_map, length_rangeInt]
  obtain ⟨i, hi, hh, hsv⟩ := zip_range_mem lo n cl hcll h s hm
  constructor
  · rw [hspan, mem_rangeInt]; omega
  · have hfa : List.Forall₂ agreeSlot ((rangeInt lo n).map (rawSlot obs)) cl :=
      forall2_fill_pipeline _
    obtain ⟨hlen, hget⟩ := List.forall₂_iff_get.mp hfa
    have hfi : i < ((rangeInt lo n).map (rawSlot obs)).length := by
      simp [length_rangeInt]; omega
    have := hget i hfi (by omega)
    have hmi : ((rangeInt lo n).map (rawSlot obs)).get ⟨i, hfi⟩ = rawSlot obs h := by
      simp only [List.get_eq_getElem, List.getElem_map]
      rw [getElem_rangeInt lo n i (by omega), ← hh]
    rw [hmi] at this
    have hci : cl.get ⟨i, by omega⟩ = s := by
      simp only [List.get_eq_getElem]
      rw [← hsv]
    rw [hci] at this
    exact this

theorem frame_pair_exists (obs : List RawObs) (h : Int)
    (hh : h ∈ hourSpan obs) : ∃ s, (h, s) ∈ resampledFrame obs := by
  unfold resampledFrame
  exact exists_zip_pair _ _ (by rw [length_fill_map]) h hh

/-! ### Structure of the day's data -/

theorem dayData_mem (obs : List RawObs) (H0 : Int) (p : Int × Slot) :
    p ∈ dayData obs H0 ↔
      p ∈ resampledFrame obs ∧ H0 ≤ p.1 ∧ p.1 < H0 + 24 := by
  unfold dayData
  rw [List.mem_filter]
  simp

theorem dayData_map_fst (obs : List RawObs) (H0 : Int) :
    (dayData obs H0).map Prod.fst =
      (hourSpan obs).filter (fun h => decide (H0 ≤ h) && decide (h < H0 + 24)) := by
  unfold dayData
  rw [map_fst_filter (resampledFrame obs)
    (fun h => decide (H0 ≤ h) && decide (h < H0 + 24)), resampledFrame_map_fst]

theorem dayData_fst_pairwise (obs : List RawObs) (H0 : Int) :
    ((dayData obs H0).map Prod.fst).Pairwise (· < ·) := by
  rw [dayData_map_fst]
  refine List.Pairwise.sublist (List.filter_sublist _) ?_
  unfold hourSpan
  cases obs.map (fun o => hourFloor o.ts) with
  | nil => exact List.Pairwise.nil
  | cons h hs => exact pairwise_rangeInt _ _

theorem dayData_window (obs : List RawObs) (H0 : Int) :
    ∀ x ∈ (dayData obs H0).map Prod.fst, H0 ≤ x ∧ x < H0 + 24 := by
  intro x hx
  obtain ⟨p, hp, rfl⟩ := List.mem_map.mp hx
  exact ((dayData_mem obs H0 p).mp hp).2

theorem dayData_filled (obs : List RawObs) (o : RawObs) (ho : o ∈ obs) :
    ∀ p ∈ dayData obs H0, filledSlot p.2 := by
  intro p hp
  exact frame_filled obs o ho p ((dayData_mem obs H0 p).mp hp).1

theorem dayData_mem_of_hour (obs : List RawObs) (H0 h : Int)
    (hh : h ∈ hourSpan obs) (hw : H0 ≤ h ∧ h < H0 + 24) :
    ∃ s, (h, s) ∈ dayData obs H0 := by
  obtain ⟨s, hs⟩ := frame_pair_exists obs h hh
  exact ⟨s, (dayData_mem obs H0 (h, s)).mpr ⟨hs, hw⟩⟩

/-! ### Structure of the skeleton merge -/

theorem mergeFill_map_fst (dd : List (Int × Slot)) (H0 : Int) :
    (mergeFill dd H0).map Prod.fst = rangeInt H0 24 := by
  unfold mergeFill
  exact List.map_fst_zip _ _ (by rw [length_fill_map])

theorem mergeFill_length (dd : List (Int × Slot)) (H0 : Int) :
    (mergeFill dd H0).length = 24 := by
  have := congrArg List.length (mergeFill_map_fst dd H0)
  rw [List.length_map, length_rangeInt] at this
  exact this

theorem lookupHour_filled (dd : List (Int × Slot))
    (hfil : ∀ p ∈ dd, filledSlot p.2) (h : Int)
    (hex : ∃ s, (h, s) ∈ dd) : filledSlot (lookupHour dd h) := by
  obtain ⟨s, hs⟩ := hex
  unfold lookupHour
  cases hf : dd.find? (fun p => p.1 == h) with
  | none => exact absurd ((List.find?_eq_none.mp hf) (h, s) hs) (by simp)
  | some p => exact hfil p (List.mem_of_find?_eq_some hf)

theorem mergeFill_filled (dd : List (Int × Slot)) (H0 : Int)
    (hfil : ∀ p ∈ dd, filledSlot p.2)
    (p0 : Int × Slot) (hp0 : p0 ∈ dd) (hw : H0 ≤ p0.1 ∧ p0.1 < H0 + 24) :
    ∀ q ∈ mergeFill dd H0, filledSlot q.2 := by
  intro q hq
  unfold mergeFill at hq
  have h2 := (List.of_mem_zip hq).2
  refine filled_of_mem_bfill_ffill _ ⟨lookupHour dd p0.1, ?_, ?_⟩ _ h2
  · refine List.mem_map_of_mem _ ?_
    rw [mem_rangeInt]
    exact_mod_cast hw
  · exact lookupHour_filled dd hfil p0.1 ⟨p0.2, hp0⟩

/-! ### Claim C2 -/

/-- C2: for every symbol-day input file containing at least one raw
observation whose timestamp lies within the day, the converter's output
for that file has exactly 24 rows, one per hour of the UTC day,
contiguous and covering the half-open day interval, and no field of any
row is left unfilled. -/
theorem resampling_completeness (obs : List RawObs) (d : Date)
    (hin : ∃ o ∈ obs, dayStartHour d ≤ hourFloor o.ts ∧
      hourFloor o.ts < dayStartHour d + 24) :
    ∃ l, (convertFile obs (dayStartHour d)).output = some l ∧ l.length = 24 ∧
      l.map Prod.fst = rangeInt (dayStartHour d) 24 ∧ ∀ p ∈ l, filledSlot p.2 := by
  set H0 := dayStartHour d with hH0
  obtain ⟨o, ho, hw⟩ := hin
  have hne : obs ≠ [] := List.ne_nil_of_mem ho
  obtain ⟨lo, n, hspan, hn, hmem, _, _⟩ := hourSpan_spec obs hne
  have hosp : hourFloor o.ts ∈ hourSpan obs := by
    rw [hspan, mem_rangeInt]; exact hmem o ho
  obtain ⟨s0, hs0⟩ := dayData_mem_of_hour obs H0 (hourFloor o.ts) hosp hw
  have hddne : dayData obs H0 ≠ [] := List.ne_nil_of_mem hs0
  have hfil : ∀ p ∈ dayData obs H0, filledSlot p.2 := dayData_filled obs o ho
  unfold convertFile
  by_cases h24 : (dayData obs H0).length = 24
  · rw [if_pos h24]
    refine ⟨dayData obs H0, rfl, h24, ?_, hfil⟩
    refine sorted_window 24 H0 _ (dayData_fst_pairwise obs H0) ?_ ?_
    · rw [List.length_map]; exact h24
    · intro x hx
      have := dayData_window obs H0 x hx
      exact_mod_cast this
  · rw [if_neg h24, if_pos (by
      cases hl : (dayData obs H0).length with
      | zero => exact absurd (List.length_eq_zero.mp hl) hddne
      | succ k => omega)]
    exact ⟨mergeFill (dayData obs H0) H0, rfl, mergeFill_length _ _,
      mergeFill_map_fst _ _,
      mergeFill_filled _ H0 hfil (hourFloor o.ts, s0) hs0 hw⟩

/-- C2 witness: a concrete one-observation file inside day 1970-01-04
satisfies the hypothesis and the conclusion. -/
theorem resampling_completeness_witness :
    ∃ l, (convertFile [⟨87 * usPerHour + 5, 1, 2, 3, 4000⟩]
        (dayStartHour ⟨1970, 1, 4⟩)).output = some l ∧ l.length = 24 ∧
      l.map Prod.fst = rangeInt (dayStartHour ⟨1970, 1, 4⟩) 24 ∧
      ∀ p ∈ l, filledSlot p.2 :=
  resampling_completeness [⟨87 * usPerHour + 5, 1, 2, 3, 4000⟩] ⟨1970, 1, 4⟩
    ⟨⟨87 * usPerHour + 5, 1, 2, 3, 4000⟩, by simp, by decide⟩

/-! ### Claim C3 -/

theorem mem_bucketOf {obs : List RawObs} {h : Int} {o : RawObs} :
    o ∈ bucketOf obs h ↔ o ∈ obs ∧ hourFloor o.ts = h := by
  simp [bucketOf, List.mem_filter]

theorem foldl_pickLast_spec (l : List RawObs) :
    l = [] ∨ ∃ l₁ o l₂, l = l₁ ++ o :: l₂ ∧
      l.foldl pickLast none = some o ∧
      (∀ x ∈ l₁, x.ts ≤ o.ts) ∧ (∀ x ∈ l₂, x.ts < o.ts) := by
  induction l using List.reverseRecOn with
  | nil => exact Or.inl rfl
  | append_singleton M x ih =>
      refine Or.inr ?_
      rcases ih with rfl | ⟨l₁, w, l₂, hdec, hfold, hub, hstrict⟩
      · exact ⟨[], x, [], by simp, by simp [pickLast], by simp, by simp⟩
      · rw [List.foldl_append, hfold]
        by_cases hts : w.ts ≤ x.ts
        · refine ⟨M, x, [], by simp, by simp [pickLast, hts], ?_, by simp⟩
          intro z hz
          rw [hdec] at hz
          rcases List.mem_append.mp hz with hz | hz
          · exact le_trans (hub z hz) hts
          · rcases List.mem_cons.mp hz with rfl | hz
            · exact hts
            · exact le_trans (le_of_lt (hstrict z hz)) hts
        · refine ⟨l₁, w, l₂ ++ [x], by rw [hdec]; simp, by simp [pickLast, hts], hub, ?_⟩
          intro z hz
          rcases List.mem_append.mp hz with hz | hz
          · exact hstrict z hz
          · rw [List.mem_singleton.mp hz]
            omega

theorem dayData_fst_nodup (obs : List RawObs) (H0 : Int) :
    ((dayData obs H0).map Prod.fst).Nodup :=
  (dayData_fst_pairwise obs H0).imp (fun h => ne_of_lt h)

theorem mergeFill_pair (dd : List (Int × Slot)) (H0 h : Int) (s : Slot)
    (hm : (h, s) ∈ mergeFill dd H0) :
    (H0 ≤ h ∧ h < H0 + 24) ∧ agreeSlot (lookupHour dd h) s := by
  unfold mergeFill at hm
  set cl := bfillSlots (ffillSlots emptySlot ((rangeInt H0 24).map (lookupHour dd)))
    with hcl
  have hcll : cl.length = 24 := by
    rw [hcl, length_fill_map, length_rangeInt]
  obtain ⟨i, hi, hh, hsv⟩ := zip_range_mem H0 24 cl hcll h s hm
  constructor
  · constructor
    · omega
    · have : (i : Int) < 24 := by exact_mod_cast (by omega : i < 24)
      omega
  · have hfa : List.Forall₂ agreeSlot ((rangeInt H0 24).map (lookupHour dd)) cl :=
      forall2_fill_pipeline _
    obtain ⟨hlen, hget⟩ := List.forall₂_iff_get.mp hfa
    have hfi : i < ((rangeInt H0 24).map (lookupHour dd)).length := by
      simp [length_rangeInt]; omega
    have hag := hget i hfi (by omega)
    have hmi : ((rangeInt H0 24).map (lookupHour dd)).get ⟨i, hfi⟩ =
        lookupHour dd h := by
      simp only [List.get_eq_getElem, List.getElem_map]
      rw [getElem_rangeInt H0 24 i (by omega), ← hh]
    have hci : cl.get ⟨i, by omega⟩ = s := by
      simp only [List.get_eq_getElem]
      rw [← hsv]
    rw [hmi, hci] at hag
    exact hag

/-- C3: for every input sequence and every hour bucket holding at least
two observations, the bucket's winner is the chronologically last
observation of the bucket with equal timestamps broken in favour of the
later input position, whatever the input order; the resampled row of
that hour carries exactly the winner's four fields, and so does the row
at that hour of any output the converter produces from this input. -/
theorem last_wins_within_hour (obs : List RawObs) (h : Int)
    (hb : 2 ≤ (bucketOf obs h).length) :
    ∃ o l₁ l₂, bucketOf obs h = l₁ ++ o :: l₂ ∧
      (∀ x ∈ l₁, x.ts ≤ o.ts) ∧ (∀ x ∈ l₂, x.ts < o.ts) ∧
      rawSlot obs h = slotOf o ∧
      ∀ (H0 : Int) (l : List (Int × Slot)) (s : Slot),
        (convertFile obs H0).output = some l → (h, s) ∈ l → s = slotOf o := by
  have hne : bucketOf obs h ≠ [] := by
    intro he; rw [he] at hb; simp at hb
  rcases foldl_pickLast_spec (bucketOf obs h) with he | ⟨l₁, o, l₂, hdec, hfold, hub, hstrict⟩
  · exact absurd he hne
  have hlast : lastInBucket obs h = some o := hfold
  have hraw : rawSlot obs h = slotOf o := by
    unfold rawSlot; rw [hlast]
  have homem : o ∈ obs ∧ hourFloor o.ts = h :=
    mem_bucketOf.mp (by rw [hdec]; simp)
  have hrawfil : filledSlot (rawSlot obs h) := by
    rw [hraw]; exact filledSlot_slotOf o
  refine ⟨o, l₁, l₂, hdec, hub, hstrict, hraw, ?_⟩
  intro H0 l s hout hmem
  have hspanmem : h ∈ hourSpan obs := by
    obtain ⟨lo, n, hspan, hn, hmemall, _, _⟩ :=
      hourSpan_spec obs (List.ne_nil_of_mem homem.1)
    rw [hspan, mem_rangeInt, ← homem.2]
    exact hmemall o homem.1
  unfold convertFile at hout
  by_cases h24 : (dayData obs H0).length = 24
  · rw [if_pos h24] at hout
    have hleq : l = dayData obs H0 := (Option.some.injEq _ _).mp hout.symm
    subst hleq
    have hfr := ((dayData_mem obs H0 (h, s)).mp hmem).1
    have hag := (frame_pair obs h s hfr).2
    rw [hraw] at hag
    exact hag (filledSlot_slotOf o)
  · by_cases h0 : 0 < (dayData obs H0).length
    · rw [if_neg h24, if_pos h0] at hout
      have hleq : l = mergeFill (dayData obs H0) H0 :=
        (Option.some.injEq _ _).mp hout.symm
      subst hleq
      obtain ⟨hw, hag⟩ := mergeFill_pair (dayData obs H0) H0 h s hmem
      obtain ⟨s', hs'⟩ := frame_pair_exists obs h hspanmem
      have hs'eq : s' = slotOf o := by
        have := (frame_pair obs h s' hs').2
        rw [hraw] at this
        exact this (filledSlot_slotOf o)
      have hdd : (h, s') ∈ dayData obs H0 :=
        (dayData_mem obs H0 (h, s')).mpr ⟨hs', hw⟩
      have hlk : lookupHour (dayData obs H0) h = s' :=
        lookupHour_eq_of_mem_nodup _ (dayData_fst_nodup obs H0) h s' hdd
      rw [hlk, hs'eq] at hag
      exact hag (filledSlot_slotOf o)
    · rw [if_neg h24, if_neg h0] at hout
      simp at hout

/-- C3 witness: two same-hour observations with distinct timestamps,
given out of chronological order; the later-timestamped one wins. -/
theorem last_wins_within_hour_witness :
    ∃ o l₁ l₂, bucketOf [⟨20, 2, 2, 2, 2⟩, ⟨10, 1, 1, 1, 1⟩] 0 = l₁ ++ o :: l₂ ∧
      (∀ x ∈ l₁, x.ts ≤ o.ts) ∧ (∀ x ∈ l₂, x.ts < o.ts) ∧
      rawSlot [⟨20, 2, 2, 2, 2⟩, ⟨10, 1, 1, 1, 1⟩] 0 = slotOf o ∧
      ∀ (H0 : Int) (l : List (Int × Slot)) (s : Slot),
        (convertFile [⟨20, 2, 2, 2, 2⟩, ⟨10, 1, 1, 1, 1⟩] H0).output = some l →
          (0, s) ∈ l → s = slotOf o :=
  last_wins_within_hour [⟨20, 2, 2, 2, 2⟩, ⟨10, 1, 1, 1, 1⟩] 0 (by decide)

/-! ### Shape of the filled skeleton when all observations sit inside
a sub-interval of the day -/

theorem ffillSlots_replicate_empty (a : Nat) (X : List Slot) :
    ffillSlots emptySlot (List.replicate a emptySlot ++ X) =
      List.replicate a emptySlot ++ ffillSlots emptySlot X := by
  induction a with
  | zero => rfl
  | succ a ih =>
      simp only [List.replicate_succ, List.cons_append, ffillSlots,
        fstepSlot_emptySlot]
      exact congrArg (emptySlot :: ·) ih

theorem ffillSlots_filled_append (sl : List Slot) (s₁ : Slot)
    (hfil : ∀ s ∈ sl, filledSlot s) (h1 : sl.getLast? = some s₁) :
    ∀ (p : Slot) (Y : List Slot), ffillSlots p (sl ++ Y) = sl ++ ffillSlots s₁ Y := by
  induction sl with
  | nil => simp at h1
  | cons s t ih =>
      intro p Y
      have hs : filledSlot s := hfil s (by simp)
      cases t with
      | nil =>
          have hs₁ : s = s₁ := by simpa using h1
          subst hs₁
          simp only [List.cons_append, List.nil_append, ffillSlots,
            fstepSlot_of_filled p s hs]
          rfl
      | cons s' t' =>
          have h1' : (s' :: t').getLast? = some s₁ := by
            rw [← List.getLast?_cons_cons]
            exact h1
          have hfil' : ∀ x ∈ s' :: t', filledSlot x := by
            intro x hx; exact hfil x (by simp [hx])
          have hstep : ffillSlots p ((s :: s' :: t') ++ Y) =
              fstepSlot p s :: ffillSlots (fstepSlot p s) ((s' :: t') ++ Y) := rfl
          rw [hstep, fstepSlot_of_filled p s hs, ih hfil' h1' s Y]
          rfl

theorem ffillSlots_replicate_after (p : Slot) (b : Nat) :
    ffillSlots p (List.replicate b emptySlot) = List.replicate b p := by
  induction b generalizing p with
  | zero => rfl
  | succ b ih =>
      simp only [List.replicate_succ, ffillSlots, fstepSlot_emptySlot, ih]

theorem fill_sandwich (a b : Nat) (s₀ s₁ : Slot) (sl : List Slot)
    (hfil : ∀ s ∈ sl, filledSlot s) (h0 : sl.head? = some s₀)
    (h1 : sl.getLast? = some s₁) :
    bfillSlots (ffillSlots emptySlot
        (List.replicate a emptySlot ++ sl ++ List.replicate b emptySlot)) =
      List.replicate a s₀ ++ sl ++ List.replicate b s₁ := by
  have hslne : sl ≠ [] := by intro he; rw [he] at h0; simp at h0
  have hforward : ffillSlots emptySlot
      (List.replicate a emptySlot ++ sl ++ List.replicate b emptySlot) =
      List.replicate a emptySlot ++ sl ++ List.replicate b s₁ := by
    rw [List.append_assoc, ffillSlots_replicate_empty,
      ffillSlots_filled_append sl s₁ hfil h1 emptySlot,
      ffillSlots_replicate_after, List.append_assoc]
  rw [hforward]
  unfold bfillSlots
  have hrev : (List.replicate a emptySlot ++ sl ++ List.replicate b s₁).reverse =
      (List.replicate b s₁ ++ sl.reverse) ++ List.replicate a emptySlot := by
    simp [List.reverse_append, List.append_assoc]
  rw [hrev]
  have hKfil : ∀ s ∈ List.replicate b s₁ ++ sl.reverse, filledSlot s := by
    intro s hs
    rcases List.mem_append.mp hs with hs | hs
    · rw [List.eq_of_mem_replicate hs]
      have : s₁ ∈ sl := by
        have := List.getLast?_eq_getElem? sl
        rw [h1] at this
        exact List.getElem?_mem this.symm
      exact hfil s₁ this
    · exact hfil s (List.mem_reverse.mp hs)
  have hKlast : (List.replicate b s₁ ++ sl.reverse).getLast? = some s₀ := by
    rw [List.getLast?_append, List.getLast?_reverse, h0]
    rfl
  rw [ffillSlots_filled_append _ s₀ hKfil hKlast emptySlot,
    ffillSlots_replicate_after]
  simp [List.reverse_append]

theorem lookupHour_eq_empty (dd : List (Int × Slot)) (h : Int)
    (hout : ∀ p ∈ dd, p.1 ≠ h) : lookupHour dd h = emptySlot := by
  unfold lookupHour
  rw [List.find?_eq_none.mpr (fun p hp => by simp [hout p hp])]

theorem map_eq_replicate {α β : Type} (l : List α) (f : α → β) (c : β)
    (h : ∀ x ∈ l, f x = c) : l.map f = List.replicate l.length c := by
  induction l with
  | nil => rfl
  | cons x t ih =>
      simp only [List.map_cons, List.length_cons, List.replicate_succ,
        h x (by simp)]
      rw [ih (fun y hy => h y (by simp [hy]))]

theorem lookup_map_range (dd : List (Int × Slot)) :
    ∀ (lo : Int) (n : Nat), dd.map Prod.fst = rangeInt lo n →
      (rangeInt lo n).map (lookupHour dd) = dd.map Prod.snd := by
  induction dd with
  | nil =>
      intro lo n h
      cases n with
      | zero => rfl
      | succ n => simp [rangeInt] at h
  | cons p t ih =>
      intro lo n h
      cases n with
      | zero => simp [rangeInt] at h
      | succ n =>
          simp only [List.map_cons, rangeInt] at h
          have h1 : p.1 = lo := ((List.cons.injEq _ _ _ _).mp h).1
          have h2 : t.map Prod.fst = rangeInt (lo + 1) n :=
            ((List.cons.injEq _ _ _ _).mp h).2
          show (lo :: rangeInt (lo + 1) n).map (lookupHour (p :: t)) =
            p.2 :: t.map Prod.snd
          simp only [List.map_cons]
          have hcongr : ∀ h' ∈ rangeInt (lo + 1) n,
              lookupHour (p :: t) h' = lookupHour t h' := by
            intro h' hh'
            have hb := mem_rangeInt.mp hh'
            have hne : p.1 ≠ h' := by omega
            have hbeq : (p.1 == h') = false := by simp [hne]
            simp [lookupHour, List.find?, hbeq]
          have ha : lookupHour (p :: t) lo = p.2 := by
            rw [← h1]; exact lookupHour_cons_self p t
          rw [ha, List.map_congr_left hcongr, ih (lo + 1) n h2]

theorem resampledFrame_length (obs : List RawObs) :
    (resampledFrame obs).length = (hourSpan obs).length := by
  unfold resampledFrame
  rw [List.length_zip, length_fill_map, Nat.min_self]

theorem sandwich_low (a b : Nat) (s₀ s₁ : Slot) (sl : List Slot) (i : Nat)
    (h0 : sl.head? = some s₀) (hi : i ≤ a)
    (hv : i < (List.replicate a s₀ ++ sl ++ List.replicate b s₁).length) :
    (List.replicate a s₀ ++ sl ++ List.replicate b s₁)[i] = s₀ := by
  cases sl with
  | nil => simp at h0
  | cons x sl' =>
  have hx : x = s₀ := by simpa using h0
  have hlen1 : i < (List.replicate a s₀ ++ (x :: sl')).length := by
    simp
    omega
  rw [List.getElem_append_left hlen1]
  by_cases hia : i < a
  · rw [List.getElem_append_left (by simpa using hia)]
    exact List.getElem_replicate _ _
  · have hieq : i = a := by omega
    rw [List.getElem_append_right (by simp; omega)]
    simp [hieq, hx]

theorem sandwich_high (a b : Nat) (s₀ s₁ : Slot) (sl : List Slot) (i : Nat)
    (h1 : sl.getLast? = some s₁)
    (hi : a + sl.length ≤ i + 1)
    (hv : i < (List.replicate a s₀ ++ sl ++ List.replicate b s₁).length) :
    (List.replicate a s₀ ++ sl ++ List.replicate b s₁)[i] = s₁ := by
  have hslne : sl ≠ [] := by
    intro he; rw [he] at h1; simp at h1
  have hsl1 : 1 ≤ sl.length := List.length_pos.mpr hslne
  by_cases hcase : a + sl.length ≤ i
  · rw [List.getElem_append_right (by simpa using hcase)]
    exact List.getElem_replicate _ _
  · have hmid : i < (List.replicate a s₀ ++ sl).length := by simp; omega
    rw [List.getElem_append_left hmid]
    rw [List.getElem_append_right (by simp; omega)]
    have hq2 : sl.length - 1 < sl.length := by omega
    have hia : i - (List.replicate a s₀).length < sl.length := by
      simp
      omega
    have hql := List.getLast?_eq_getElem? sl
    rw [h1] at hql
    have h2 : sl[sl.length - 1]? = some s₁ := hql.symm
    rw [List.getElem?_eq_getElem hq2] at h2
    have h3 : sl[sl.length - 1] = s₁ := Option.some.inj h2
    have h4 : sl[i - (List.replicate a s₀).length] = sl[sl.length - 1] := by
      congr 1
      simp
      omega
    rw [h4, h3]

/-! ### Claim C4 -/

/-- C4: for every nonempty input whose observations fall only in hours
10 through 14 of the day, the produced 24-row output has the rows for
hours 0-9 all equal to hour 10's row (back-fill) and the rows for hours
15-23 all equal to hour 14's row (forward-fill). -/
theorem fill_direction (obs : List RawObs) (d : Date)
    (hne : obs ≠ [])
    (hall : ∀ o ∈ obs, dayStartHour d + 10 ≤ hourFloor o.ts ∧
      hourFloor o.ts ≤ dayStartHour d + 14) :
    ∃ l, (convertFile obs (dayStartHour d)).output = some l ∧ l.length = 24 ∧
      ∀ p ∈ l, ∀ q ∈ l,
        ((q.1 = dayStartHour d + 10 ∧ dayStartHour d ≤ p.1 ∧
            p.1 ≤ dayStartHour d + 9) → p.2 = q.2) ∧
        ((q.1 = dayStartHour d + 14 ∧ dayStartHour d + 15 ≤ p.1 ∧
            p.1 ≤ dayStartHour d + 23) → p.2 = q.2) := by
  set H0 := dayStartHour d with hH0
  obtain ⟨o₀, ho₀⟩ := List.exists_mem_of_ne_nil obs hne
  obtain ⟨lo, n, hspan, hn, hmemall, hlow, hhigh⟩ := hourSpan_spec obs hne
  have hlo : H0 + 10 ≤ lo := hlow (H0 + 10) (fun o ho => (hall o ho).1)
  have hhi : lo + n ≤ H0 + 15 := by
    have := hhigh (H0 + 14) (fun o ho => (hall o ho).2)
    omega
  have hddeq : dayData obs H0 = resampledFrame obs := by
    unfold dayData
    apply List.filter_eq_self.mpr
    intro p hp
    have hp1 : p.1 ∈ hourSpan obs := by
      rw [← resampledFrame_map_fst]
      exact List.mem_map_of_mem _ hp
    rw [hspan, mem_rangeInt] at hp1
    simp only [Bool.and_eq_true, decide_eq_true_eq]
    omega
  have hddlen : (dayData obs H0).length = n := by
    rw [hddeq, resampledFrame_length, hspan, length_rangeInt]
  have hn24 : ¬(dayData obs H0).length = 24 := by omega
  have hn0 : 0 < (dayData obs H0).length := by omega
  have hout : (convertFile obs H0).output =
      some (mergeFill (dayData obs H0) H0) := by
    unfold convertFile
    rw [if_neg hn24, if_pos hn0]
  have hddfst : (dayData obs H0).map Prod.fst = rangeInt lo n := by
    rw [hddeq, resampledFrame_map_fst, hspan]
  have hddfil : ∀ p ∈ dayData obs H0, filledSlot p.2 := dayData_filled obs o₀ ho₀
  have hsllen : ((dayData obs H0).map Prod.snd).length = n := by
    rw [List.length_map]
    exact hddlen
  have hslne : (dayData obs H0).map Prod.snd ≠ [] := by
    intro he
    rw [he] at hsllen
    simp at hsllen
    omega
  obtain ⟨s₀, sl', hslcons⟩ := List.exists_cons_of_ne_nil hslne
  have hs₀head : ((dayData obs H0).map Prod.snd).head? = some s₀ := by
    rw [hslcons]
    rfl
  have hslfil : ∀ s ∈ (dayData obs H0).map Prod.snd, filledSlot s := by
    intro s hs
    obtain ⟨p, hp, rfl⟩ := List.mem_map.mp hs
    exact hddfil p hp
  cases hgl : ((dayData obs H0).map Prod.snd).getLast? with
  | none => exact absurd (List.getLast?_eq_none_iff.mp hgl) hslne
  | some s₁ =>
  set a := (lo - H0).toNat with hA
  set b := (H0 + 24 - lo - (n : Int)).toNat with hB
  have haInt : (a : Int) = lo - H0 := by omega
  have hbInt : (b : Int) = H0 + 24 - lo - (n : Int) := by omega
  have hsplitN : (24 : Nat) = a + (n + b) := by omega
  have hskel : (rangeInt H0 24).map (lookupHour (dayData obs H0)) =
      List.replicate a emptySlot ++ (dayData obs H0).map Prod.snd ++
        List.replicate b emptySlot := by
    have e1 : rangeInt H0 24 =
        rangeInt H0 a ++ (rangeInt lo n ++ rangeInt (lo + n) b) := by
      rw [show rangeInt H0 24 = rangeInt H0 (a + (n + b)) from by rw [← hsplitN]]
      rw [rangeInt_append]
      rw [show H0 + (a : Int) = lo from by omega]
      rw [rangeInt_append]
    rw [e1, List.map_append, List.map_append, ← List.append_assoc]
    have hseg1 : (rangeInt H0 a).map (lookupHour (dayData obs H0)) =
        List.replicate a emptySlot := by
      rw [map_eq_replicate _ _ emptySlot ?_, length_rangeInt]
      intro h hh
      apply lookupHour_eq_empty
      intro p hp
      have hpf : p.1 ∈ rangeInt lo n := by
        rw [← hddfst]
        exact List.mem_map_of_mem _ hp
      have h1 := mem_rangeInt.mp hpf
      have h2 := mem_rangeInt.mp hh
      omega
    have hseg3 : (rangeInt (lo + n) b).map (lookupHour (dayData obs H0)) =
        List.replicate b emptySlot := by
      rw [map_eq_replicate _ _ emptySlot ?_, length_rangeInt]
      intro h hh
      apply lookupHour_eq_empty
      intro p hp
      have hpf : p.1 ∈ rangeInt lo n := by
        rw [← hddfst]
        exact List.mem_map_of_mem _ hp
      have h1 := mem_rangeInt.mp hpf
      have h2 := mem_rangeInt.mp hh
      omega
    rw [hseg1, hseg3, lookup_map_range (dayData obs H0) lo n hddfst]
  have hmergeEq : mergeFill (dayData obs H0) H0 = (rangeInt H0 24).zip
      (List.replicate a s₀ ++ (dayData obs H0).map Prod.snd ++
        List.replicate b s₁) := by
    show (rangeInt H0 24).zip (bfillSlots (ffillSlots emptySlot
        ((rangeInt H0 24).map (lookupHour (dayData obs H0))))) = _
    rw [hskel, fill_sandwich a b s₀ s₁ _ hslfil hs₀head hgl]
  set v := List.replicate a s₀ ++ (dayData obs H0).map Prod.snd ++
    List.replicate b s₁ with hv
  have hvlen : v.length = 24 := by
    rw [hv]
    simp only [List.length_append, List.length_replicate, List.length_map]
    omega
  have ha10 : 10 ≤ a := by omega
  have han15 : a + ((dayData obs H0).map Prod.snd).length ≤ 15 := by omega
  refine ⟨mergeFill (dayData obs H0) H0, hout, mergeFill_length _ H0, ?_⟩
  intro p hp q hq
  rw [hmergeEq] at hp hq
  have hp' : (p.1, p.2) ∈ (rangeInt H0 24).zip v := by
    rw [Prod.mk.eta]
    exact hp
  have hq' : (q.1, q.2) ∈ (rangeInt H0 24).zip v := by
    rw [Prod.mk.eta]
    exact hq
  obtain ⟨i, hiv, hpi, hpv⟩ := zip_range_mem H0 24 v hvlen p.1 p.2 hp'
  obtain ⟨j, hjv, hqj, hqv⟩ := zip_range_mem H0 24 v hvlen q.1 q.2 hq'
  constructor
  · rintro ⟨hq10, hpge, hple⟩
    have hj : j = 10 := by omega
    have hi9 : i ≤ 9 := by omega
    have hpv₀ : p.2 = s₀ := by
      rw [hpv]
      exact sandwich_low a b s₀ s₁ _ i hs₀head (by omega) hiv
    have hqv₀ : q.2 = s₀ := by
      rw [hqv]
      exact sandwich_low a b s₀ s₁ _ j hs₀head (by omega) hjv
    rw [hpv₀, hqv₀]
  · rintro ⟨hq14, hpge, hple⟩
    have hj : j = 14 := by omega
    have hi15 : 15 ≤ i := by omega
    have hpv₁ : p.2 = s₁ := by
      rw [hpv]
      exact sandwich_high a b s₀ s₁ _ i hgl (by omega) hiv
    have hqv₁ : q.2 = s₁ := by
      rw [hqv]
      exact sandwich_high a b s₀ s₁ _ j hgl (by omega) hjv
    rw [hpv₁, hqv₁]

/-- C4 witness: two observations in hours 10 and 14 of day 1970-01-02. -/
theorem fill_direction_witness :
    ∃ l, (convertFile [⟨34 * usPerHour, 100, 0, 0, 0⟩, ⟨38 * usPerHour + 3, 140, 1, 1, 1⟩]
        (dayStartHour ⟨1970, 1, 2⟩)).output = some l ∧ l.length = 24 ∧
      ∀ p ∈ l, ∀ q ∈ l,
        ((q.1 = dayStartHour ⟨1970, 1, 2⟩ + 10 ∧ dayStartHour ⟨1970, 1, 2⟩ ≤ p.1 ∧
            p.1 ≤ dayStartHour ⟨1970, 1, 2⟩ + 9) → p.2 = q.2) ∧
        ((q.1 = dayStartHour ⟨1970, 1, 2⟩ + 14 ∧ dayStartHour ⟨1970, 1, 2⟩ + 15 ≤ p.1 ∧
            p.1 ≤ dayStartHour ⟨1970, 1, 2⟩ + 23) → p.2 = q.2) :=
  fill_direction [⟨34 * usPerHour, 100, 0, 0, 0⟩, ⟨38 * usPerHour + 3, 140, 1, 1, 1⟩]
    ⟨1970, 1, 2⟩ (by simp) (by decide)

/-! ### Claim C1 -/

/-- C1 (code bug witnessed in the code): the archive and purge lookups
recompute one and the same timestamp, but it is the 08:00-local-time
variant, not the converter's UTC-midnight settlement timestamp.  For
day 2025-05-01 the converter names its output by 1746144000000 ms
(2025-05-02T00:00:00Z) while `compress_day_data` and `cleanup_data`,
run with a local timezone of UTC (offset 0), look files up under
1746172800000 ms (eight hours later); the three values coincide only
when the machine's local timezone offset is exactly UTC+8 (28800 s). -/
theorem settlement_timestamp_disagreement :
    (∀ (tzOff : Int) (d : Date),
      compressTargetTimestamp tzOff d = cleanupTargetTimestamp tzOff d) ∧
    convertOutputTimestamp ⟨2025, 5, 1⟩ = 1746144000000 ∧
    compressTargetTimestamp 0 ⟨2025, 5, 1⟩ = 1746172800000 ∧
    cleanupTargetTimestamp 0 ⟨2025, 5, 1⟩ = 1746172800000 ∧
    compressTargetTimestamp 0 ⟨2025, 5, 1⟩ ≠ convertOutputTimestamp ⟨2025, 5, 1⟩ ∧
    (∀ d : Date, compressTargetTimestamp 28800 d = convertOutputTimestamp d) := by
  refine ⟨fun tzOff d => rfl, by decide, by decide, by decide, by decide, ?_⟩
  intro d
  unfold compressTargetTimestamp convertOutputTimestamp
  ring

/-! ### Claim C7 -/

theorem pairwise_window_length (l : List Int) (hp : l.Pairwise (· < ·))
    (a : Int) (n : Nat) (hmem : ∀ x ∈ l, a ≤ x ∧ x < a + n) :
    l.length ≤ n := by
  cases hl : l with
  | nil => simp
  | cons x t =>
      subst hl
      by_contra hgt
      push_neg at hgt
      have h0 : 0 < (x :: t).length := by simp
      have hi : (x :: t).length - 1 < (x :: t).length := by omega
      have hlast := pairwise_lt_getElem_bound (x :: t) hp ((x :: t).length - 1) hi h0
      have hm1 := hmem ((x :: t)[0]) (List.getElem_mem h0)
      have hm2 := hmem ((x :: t)[(x :: t).length - 1]) (List.getElem_mem hi)
      have hc : ((((x :: t).length - 1 : Nat)) : Int) = (x :: t).length - 1 := by
        have : 1 ≤ (x :: t).length := by simp
        omega
      omega

theorem dayData_length_le (obs : List RawObs) (H0 : Int) :
    (dayData obs H0).length ≤ 24 := by
  have h := pairwise_window_length ((dayData obs H0).map Prod.fst)
    (dayData_fst_pairwise obs H0) H0 24 (fun x hx => by
      have := dayData_window obs H0 x hx
      exact_mod_cast this)
  rw [List.length_map] at h
  exact h

/-- C7 counterexample: an input file with one raw observation, all of
whose rows fall outside the named day (hour 54 of the epoch against day
1970-01-02 = hours 24-47), has at least one row and fewer than 24
populated hours, yet the converter skips the output file entirely
(output `none`), against the claim's promise that a file is still
written whenever any row existed. -/
theorem incomplete_write_counterexample :
    ([(⟨54 * usPerHour, 7, 7, 7, 7⟩ : RawObs)] ≠ []) ∧
    (dayData [⟨54 * usPerHour, 7, 7, 7, 7⟩] (dayStartHour ⟨1970, 1, 2⟩)).length < 24 ∧
    (convertFile [⟨54 * usPerHour, 7, 7, 7, 7⟩] (dayStartHour ⟨1970, 1, 2⟩)).output
      = none ∧
    (convertFile [⟨54 * usPerHour, 7, 7, 7, 7⟩] (dayStartHour ⟨1970, 1, 2⟩)).problem
      = true := by
  exact ⟨by simp, by decide, by decide, by decide⟩

/-- C7 (amended): a zero-row symbol-day input produces no output file
and is recorded in the problem report without raising; an input with at
least one observation whose hour falls inside the day always produces an
output file, and such a file is recorded in the problem report exactly
when the day's resampled rows number fewer than 24.  (The original
claim promised a written file for every nonempty input with fewer than
24 populated hours; an input whose rows all fall outside the day has
zero populated hours and is skipped like the empty input.) -/
theorem zero_row_skip_and_partial_write (obs : List RawObs) (d : Date) :
    (obs = [] → (convertFile obs (dayStartHour d)).output = none ∧
      (convertFile obs (dayStartHour d)).problem = true) ∧
    ((∃ o ∈ obs, dayStartHour d ≤ hourFloor o.ts ∧
        hourFloor o.ts < dayStartHour d + 24) →
      (convertFile obs (dayStartHour d)).output ≠ none ∧
      ((convertFile obs (dayStartHour d)).problem = true ↔
        (dayData obs (dayStartHour d)).length < 24)) := by
  constructor
  · rintro rfl
    exact ⟨rfl, rfl⟩
  · intro hin
    set H0 := dayStartHour d with hH0
    obtain ⟨o, ho, hw⟩ := hin
    have hne : obs ≠ [] := List.ne_nil_of_mem ho
    obtain ⟨lo, n, hspan, hn, hmem, _, _⟩ := hourSpan_spec obs hne
    have hosp : hourFloor o.ts ∈ hourSpan obs := by
      rw [hspan, mem_rangeInt]; exact hmem o ho
    obtain ⟨s0, hs0⟩ := dayData_mem_of_hour obs H0 (hourFloor o.ts) hosp hw
    have hddne : dayData obs H0 ≠ [] := List.ne_nil_of_mem hs0
    have hddpos : 0 < (dayData obs H0).length := List.length_pos.mpr hddne
    have hddle := dayData_length_le obs H0
    unfold convertFile
    by_cases h24 : (dayData obs H0).length = 24
    · rw [if_pos h24]
      constructor
      · simp
      · constructor
        · intro hfalse; simp at hfalse
        · intro hlt; omega
    · rw [if_neg h24, if_pos hddpos]
      constructor
      · simp
      · constructor
        · intro _; omega
        · intro _; rfl

/-! ### Claim C5 -/

/-- C5: `process_single_date` succeeds exactly when the fetch call did
not raise, the extract stage produced at least one file and the convert
stage counted at least one per-symbol success; the archive and purge
outcomes never change the verdict (the result is invariant under the
archive file count and the purge failure count), and when
`compress_day_data` reports failure the cleanup stage still runs. -/
theorem process_verdict (date_str : String) (m : AvailabilityMatrix) (w : DayWorld) :
    ((process_single_date date_str m w).ok = true ↔
      (w.fetchRaises = false ∧
        extract_day_data (get_available_symbols_for_date m date_str) w ≠ [] ∧
        1 ≤ (convert_day_data date_str
          (get_available_symbols_for_date m date_str) w).success)) ∧
    (∀ cc cf : Nat,
      process_single_date date_str m
        { w with compressedCount := cc, cleanupFailures := cf } =
        process_single_date date_str m w) ∧
    (compress_day_data w = false → (process_single_date date_str m w).ok = true →
      (process_single_date date_str m w).cleanupRan = true) := by
  have hpsd : process_single_date date_str m w =
      (if (get_available_symbols_for_date m date_str).isEmpty = true then
        ⟨false, false⟩
      else if w.fetchRaises = true then ⟨false, false⟩
      else if (extract_day_data (get_available_symbols_for_date m date_str)
          w).isEmpty = true then ⟨false, false⟩
      else if (convert_day_data date_str
          (get_available_symbols_for_date m date_str) w).success = 0 then
        ⟨false, false⟩
      else ⟨true, true⟩) := rfl
  refine ⟨?_, fun cc cf => rfl, ?_⟩
  · rw [hpsd]
    by_cases h1 : (get_available_symbols_for_date m date_str).isEmpty = true
    · rw [if_pos h1]
      constructor
      · intro h
        exact absurd h (by simp)
      · rintro ⟨-, hex, -⟩
        exfalso
        rw [List.isEmpty_iff.mp h1] at hex
        exact hex rfl
    · rw [if_neg h1]
      by_cases h2 : w.fetchRaises = true
      · rw [if_pos h2]
        constructor
        · intro h
          exact absurd h (by simp)
        · rintro ⟨hf, -, -⟩
          exfalso
          rw [hf] at h2
          exact Bool.false_ne_true h2
      · rw [if_neg h2]
        by_cases h3 : (extract_day_data (get_available_symbols_for_date m date_str)
            w).isEmpty = true
        · rw [if_pos h3]
          constructor
          · intro h
            exact absurd h (by simp)
          · rintro ⟨-, hex, -⟩
            exact absurd (List.isEmpty_iff.mp h3) hex
        · rw [if_neg h3]
          by_cases h4 : (convert_day_data date_str
              (get_available_symbols_for_date m date_str) w).success = 0
          · rw [if_pos h4]
            constructor
            · intro h
              exact absurd h (by simp)
            · rintro ⟨-, -, hc⟩
              omega
          · rw [if_neg h4]
            constructor
            · intro _
              refine ⟨?_, ?_, ?_⟩
              · cases hf : w.fetchRaises with
                | false => rfl
                | true => exact absurd hf h2
              · intro he
                rw [he] at h3
                exact h3 rfl
              · omega
            · intro _
              rfl
  · have hcr : (process_single_date date_str m w).cleanupRan =
        (process_single_date date_str m w).ok := by
      rw [hpsd]
      split_ifs <;> rfl
    intro _ hok
    rw [hcr, hok]

/-! ### Claim C6 -/

/-- C6 counterexample: a day with no entry in the availability matrix is
"skipped" (no stage runs), yet `process_single_date` returns `False`,
`main` records the day among the failed days and exits with code 1. -/
theorem skip_day_counted_failed :
    get_available_symbols_for_date ⟨[], []⟩ "2025-05-01" = [] ∧
    (process_single_date "2025-05-01" ⟨[], []⟩
      ⟨false, fun _ => false, fun _ => false, fun _ => none, 0, 0⟩).ok = false ∧
    runDays ["2025-05-01"] ⟨[], []⟩
      (fun _ => ⟨false, fun _ => false, fun _ => false, fun _ => none, 0, 0⟩) =
      ⟨["2025-05-01"], 1⟩ :=
  ⟨rfl, rfl, rfl⟩

/-- C6 (amended): a day whose availability lookup yields no symbols is
skipped in the sense that no stage runs (`process_single_date` returns
immediately, cleanup never runs), but its verdict is `False`, so the
run summary records it as a failed day and the process exit code is 1
whenever such a day lies in the processed range — even though no stage
actually failed. -/
theorem empty_symbols_day_failed (days : List String) (m : AvailabilityMatrix)
    (w : String → DayWorld) (dstr : String) (hd : dstr ∈ days)
    (hempty : get_available_symbols_for_date m dstr = []) :
    process_single_date dstr m (w dstr) = ⟨false, false⟩ ∧
    dstr ∈ (runDays days m w).failedDays ∧
    (runDays days m w).exitCode = 1 := by
  have h1 : process_single_date dstr m (w dstr) = ⟨false, false⟩ := by
    unfold process_single_date
    rw [hempty]
    rfl
  have h2 : dstr ∈ days.filter (fun d => !(process_single_date d m (w d)).ok) := by
    rw [List.mem_filter]
    refine ⟨hd, ?_⟩
    rw [h1]
    rfl
  refine ⟨h1, ?_, ?_⟩
  · unfold runDays
    exact h2
  · unfold runDays
    simp only
    rw [if_neg ?_]
    intro hiso
    rw [List.isEmpty_iff.mp hiso] at h2
    simp at h2

/-- C6 witness: the amended behaviour at a concrete one-day run over an
empty availability matrix. -/
theorem empty_symbols_day_failed_witness :
    process_single_date "2025-05-01" ⟨[], []⟩
      ((fun _ => ⟨false, fun _ => false, fun _ => false, fun _ => none, 0, 0⟩ :
        String → DayWorld) "2025-05-01") = ⟨false, false⟩ ∧
    "2025-05-01" ∈ (runDays ["2025-05-01"] ⟨[], []⟩
      (fun _ => ⟨false, fun _ => false, fun _ => false, fun _ => none, 0, 0⟩)).failedDays ∧
    (runDays ["2025-05-01"] ⟨[], []⟩
      (fun _ => ⟨false, fun _ => false, fun _ => false, fun _ => none, 0, 0⟩)).exitCode
      = 1 :=
  empty_symbols_day_failed ["2025-05-01"] ⟨[], []⟩
    (fun _ => ⟨false, fun _ => false, fun _ => false, fun _ => none, 0, 0⟩)
    "2025-05-01" (by simp) rfl

/-! ### Claim C9 -/

/-- C9: re-running the fetch for a (symbols, day) pair whose target
files all already exist performs zero downloads, leaves the file system
pointwise unchanged, reports the full symbol set as already satisfied
(both as pre-existing and as present afterwards) and returns success. -/
theorem idempotent_fetch (net : String → String) (fs : FileSys)
    (symbols : List String) (date_str downloadDir : String)
    (hall : ∀ s ∈ symbols, (fs (targetPath downloadDir s date_str)).isSome = true) :
    (download_funding_rate_data net fs symbols date_str downloadDir).2.2 = [] ∧
    (∀ p, (download_funding_rate_data net fs symbols date_str downloadDir).1 p
      = fs p) ∧
    (download_funding_rate_data net fs symbols date_str downloadDir).2.1.initialFiles
      = symbols ∧
    (download_funding_rate_data net fs symbols date_str downloadDir).2.1.finalDownloaded
      = symbols ∧
    (download_funding_rate_data net fs symbols date_str downloadDir).2.1.ok = true := by
  have hmiss : symbols.filter
      (fun s => (fs (targetPath downloadDir s date_str)).isNone) = [] := by
    rw [List.filter_eq_nil_iff]
    intro s hs
    have := hall s hs
    cases h : fs (targetPath downloadDir s date_str) with
    | none => rw [h] at this; simp at this
    | some v => simp [h]
  unfold download_funding_rate_data datasets_download
  rw [hmiss]
  exact ⟨rfl, fun p => rfl, List.filter_eq_self.mpr hall,
    List.filter_eq_self.mpr hall, rfl⟩

/-- C9 witness: one symbol whose target already exists on a file system
where every path is present. -/
theorem idempotent_fetch_witness :
    (download_funding_rate_data (fun _ => "") (fun _ => some "cached")
      ["BTCUSDT"] "2025-05-01" "dl").2.2 = [] ∧
    (∀ p, (download_funding_rate_data (fun _ => "") (fun _ => some "cached")
      ["BTCUSDT"] "2025-05-01" "dl").1 p = (fun _ => some "cached") p) ∧
    (download_funding_rate_data (fun _ => "") (fun _ => some "cached")
      ["BTCUSDT"] "2025-05-01" "dl").2.1.initialFiles = ["BTCUSDT"] ∧
    (download_funding_rate_data (fun _ => "") (fun _ => some "cached")
      ["BTCUSDT"] "2025-05-01" "dl").2.1.finalDownloaded = ["BTCUSDT"] ∧
    (download_funding_rate_data (fun _ => "") (fun _ => some "cached")
      ["BTCUSDT"] "2025-05-01" "dl").2.1.ok = true :=
  idempotent_fetch (fun _ => "") (fun _ => some "cached") ["BTCUSDT"]
    "2025-05-01" "dl" (fun _ _ => rfl)

/-! ### Claim C10 -/

/-- C10: `convert_day_data` counts a symbol as a conversion success for
a day exactly when the symbol's output directory exists and holds at
least one file whose name ends in `.csv`; the count never consults the
date, so it is invariant under changing the processed day, and a
directory holding only a stale file named for a different day still
makes the symbol (and the convert stage) count as successful. -/
theorem convert_count_ignores_date (date_str date_str' : String)
    (symbols : List String) (w : DayWorld) (s : String) (hs : s ∈ symbols)
    (files : List String) (hdir : w.convertOutput s = some files)
    (f : String) (hf : f ∈ files) (hcsv : endswith f ".csv" = true) :
    convert_day_data date_str symbols w = convert_day_data date_str' symbols w ∧
    (∀ t, symbolConvertSuccess w t = true ↔
      ∃ fl, w.convertOutput t = some fl ∧ ∃ g ∈ fl, endswith g ".csv" = true) ∧
    symbolConvertSuccess w s = true ∧
    1 ≤ (convert_day_data date_str symbols w).success := by
  have hsucc : symbolConvertSuccess w s = true := by
    unfold symbolConvertSuccess
    rw [hdir]
    exact List.any_eq_true.mpr ⟨f, hf, hcsv⟩
  refine ⟨rfl, ?_, hsucc, ?_⟩
  · intro t
    unfold symbolConvertSuccess
    cases ht : w.convertOutput t with
    | none => simp
    | some fl => simp [List.any_eq_true]
  · unfold convert_day_data
    simp only
    have hmem : s ∈ symbols.filter (fun t => symbolConvertSuccess w t) :=
      List.mem_filter.mpr ⟨hs, hsucc⟩
    have := List.length_pos.mpr (List.ne_nil_of_mem hmem)
    omega

/-- C10 witness: a symbol directory holding only a file named by a
different day's settlement timestamp still counts as converted, for two
different processed days. -/
theorem convert_count_ignores_date_witness :
    convert_day_data "2025-05-01" ["ETHUSDT"]
        ⟨false, fun _ => false, fun _ => false, fun _ => some ["9999999.csv"], 0, 0⟩ =
      convert_day_data "2025-05-02" ["ETHUSDT"]
        ⟨false, fun _ => false, fun _ => false, fun _ => some ["9999999.csv"], 0, 0⟩ ∧
    (∀ t, symbolConvertSuccess
        ⟨false, fun _ => false, fun _ => false, fun _ => some ["9999999.csv"], 0, 0⟩ t
        = true ↔
      ∃ fl, (some ["9999999.csv"] : Option (List String)) = some fl ∧
        ∃ g ∈ fl, endswith g ".csv" = true) ∧
    symbolConvertSuccess
      ⟨false, fun _ => false, fun _ => false, fun _ => some ["9999999.csv"], 0, 0⟩
      "ETHUSDT" = true ∧
    1 ≤ (convert_day_data "2025-05-01" ["ETHUSDT"]
      ⟨false, fun _ => false, fun _ => false, fun _ => some ["9999999.csv"], 0, 0⟩).success :=
  convert_count_ignores_date "2025-05-01" "2025-05-02" ["ETHUSDT"]
    ⟨false, fun _ => false, fun _ => false, fun _ => some ["9999999.csv"], 0, 0⟩
    "ETHUSDT" (by simp) ["9999999.csv"] rfl "9999999.csv" (by simp) (by decide)

end FundingETL
